import Mathlib

/-!
Verification of the galactic-star-catalogue pipeline scripts.

The Python sources are embedded shallowly:
* `scripts/tile_data_py.py`  → namespace `Tiler`
* `scripts/fetch_hipparcos_vizier.py` → namespace `Fetch`
* `scripts/enrich_with_simbad_names.py` → namespace `Enrich`
* `scripts/make_10k_after_hip50.py` → namespace `Synth`

Python floats are modelled by `ℚ` (exact arithmetic on the values the
scripts manipulate); Python `None` / missing fields by `Option`;
exceptions that a script catches by total functions returning the
caught-branch value, and uncaught exceptions by `Option`-valued results.
Transcendental operations (`log10`, `10 ** x`) and the random draws of
`numpy.random` are passed in as explicit function parameters, so every
definition stays executable.
-/

namespace GSC

namespace Tiler

/-- `TILE_DEG = 4.0` from `tile_data_py.py`. -/
def TILE_DEG : ℚ := 4

/-- Python's float modulo: `x % y = x - y * floor(x / y)` (sign of the
divisor), the semantics used twice in `tile_data_py.py` line 30. -/
def pymod (x y : ℚ) : ℚ := x - y * ⌊x / y⌋

/-- `((ra % 360) + 360) % 360` from `tile_data_py.py` line 30. -/
def wrapRA (ra : ℚ) : ℚ := pymod (pymod ra 360 + 360) 360

/-- `tx = int(math.floor(((ra % 360) + 360) % 360 / TILE_DEG))`, line 30. -/
def txOf (ra : ℚ) : ℤ := ⌊wrapRA ra / TILE_DEG⌋

/-- `ty = int(math.floor((dec + 90.0) / TILE_DEG))`, line 31. -/
def tyOf (dec : ℚ) : ℤ := ⌊(dec + 90) / TILE_DEG⌋

/-- State of the `"ra"` / `"dec"` field of a parsed JSON object in the
Tiler's loop: the field may be absent from the object (or hold JSON
`null`, which `obj.get` also returns as `None`), it may hold a value that
`float(...)` rejects, or it may hold a numeric value. -/
inductive CoordField where
  | absent
  | nonNumeric
  | num (q : ℚ)
deriving DecidableEq

/-- One JSON object of the input stream, as the Tiler's loop sees it:
its `"ra"` and `"dec"` fields plus an opaque tag standing for the rest of
the object (the Python code appends the whole parsed object `obj` to its
tile). -/
structure RawRecord where
  ra : CoordField
  dec : CoordField
  payload : ℕ
deriving DecidableEq

/-- One line of the input file: `none` models a line that `json.loads`
rejects (the `except: continue` at lines 18-21). -/
abbrev Line := Option RawRecord

/-- Lines 22-29: `obj.get("ra")` / `obj.get("dec")`, the `is None`
checks, then `float(ra); float(dec)` under `try/except: continue`.
A record survives exactly when both fields hold numeric values. -/
def coordsOf (r : RawRecord) : Option (ℚ × ℚ) :=
  match r.ra, r.dec with
  | .num a, .num d => some (a, d)
  | _, _ => none

/-- The tile key `(tx, ty)` of a surviving record (lines 30-32). -/
def keyOf (r : RawRecord) : Option (ℤ × ℤ) :=
  (coordsOf r).map (fun c => (txOf c.1, tyOf c.2))

/-- Full processing of one input line: `none` when the line is skipped
(malformed JSON, missing field, or unparseable number), otherwise the
record together with its tile key. -/
def parseLine (ln : Line) : Option (RawRecord × ℤ × ℤ) :=
  ln.bind fun r => (keyOf r).map fun k => (r, k)

/-- The `tiles` map: an insertion-ordered association list from tile key
to the list of records appended to that tile (`defaultdict(list)`). -/
abbrev TileMap := List ((ℤ × ℤ) × List RawRecord)

/-- `tiles[key].append(obj)`: append `r` to the entry of `k`, creating
the entry (at the end, as dict insertion does) if it is absent. -/
def appendTile (m : TileMap) (k : ℤ × ℤ) (r : RawRecord) : TileMap :=
  match m with
  | [] => [(k, [r])]
  | (k', v) :: rest =>
      if k' = k then (k', v ++ [r]) :: rest else (k', v) :: appendTile rest k r

/-- One iteration of the loop at lines 17-33. -/
def step (m : TileMap) (ln : Line) : TileMap :=
  match parseLine ln with
  | none => m
  | some (r, k) => appendTile m k r

/-- The whole loop: fold `step` over the input lines. -/
def buildTiles (lines : List Line) : TileMap :=
  lines.foldl step []

/-- Lookup in the tile map; `[]` for a key with no entry. -/
def tileGet (m : TileMap) (k : ℤ × ℤ) : List RawRecord :=
  match m with
  | [] => []
  | (k', v) :: rest => if k' = k then v else tileGet rest k

/-- The records of the tile with key `k` after tiling `lines`. -/
def contentOf (lines : List Line) (k : ℤ × ℤ) : List RawRecord :=
  tileGet (buildTiles lines) k

/-- The surviving records, each with its tile key, in input order. -/
def validKeyed (lines : List Line) : List (RawRecord × ℤ × ℤ) :=
  lines.filterMap parseLine

/-- The surviving records in input order. -/
def validRecords (lines : List Line) : List RawRecord :=
  (validKeyed lines).map Prod.fst

/-- The newline character appended by `"\n".join(...) + "\n"` (line 38);
file contents are modelled as their character sequence (equal character
sequences have equal UTF-8 encodings). -/
def NL : List Char := ['\n']

/-- `"\n".join(strs)`: the separator-joined concatenation (line 38). -/
def joinSep : List (List Char) → List Char
  | [] => []
  | [a] => a
  | a :: b :: rest => a ++ NL ++ joinSep (b :: rest)

/-- `plain = "\n".join(json.dumps(x, default=str) for x in arr) + "\n"`
(line 38), with the serializer `json.dumps` passed in as `dumps`. This
very value is written to the plain `.ndjson` file (line 41) and fed to
the gzip writer (line 45). -/
def plainContent (dumps : RawRecord → List Char) (arr : List RawRecord) :
    List Char :=
  joinSep (arr.map dumps) ++ NL

/-- The byte content of the `.ndjson.gz` sibling file: the compressor
applied to exactly the plain content (lines 43-45). -/
def gzContent (gz : List Char → List Char) (dumps : RawRecord → List Char)
    (arr : List RawRecord) : List Char :=
  gz (plainContent dumps arr)

end Tiler

namespace Fetch

/-- `df['dist_pc'] = df['plx'].apply(lambda p: 1000.0/p if pd.notna(p)
and p>0 else None)` — `fetch_hipparcos_vizier.py` line 65. -/
def dist_pc : Option ℚ → Option ℚ
  | some p => if 0 < p then some (1000 / p) else none
  | none => none

/-- `compute_absmag` (lines 67-71): `m - 5*(log10(d) - 1)` when both the
distance and the magnitude are present and `d > 0`, else `None`. `log10`
is passed in as a function parameter. -/
def absmag (log10 : ℚ → ℚ) (d m : Option ℚ) : Option ℚ :=
  match d, m with
  | some dv, some mv => if 0 < dv then some (mv - 5 * (log10 dv - 1)) else none
  | _, _ => none

/-- `bv_to_temp` (lines 74-79): the Ballesteros formula; a missing `bv`
gives `None`, and a zero denominator (Python `ZeroDivisionError`, caught
by the bare `except`) also gives `None`. -/
def bv_to_temp : Option ℚ → Option ℚ
  | none => none
  | some b =>
      if 0.92 * b + 1.7 = 0 ∨ 0.92 * b + 0.62 = 0 then none
      else some (4600 * (1 / (0.92 * b + 1.7) + 1 / (0.92 * b + 0.62)))

end Fetch

namespace Enrich

/-- Python strings, modelled as their character sequences (the built-in
`String` functions do not evaluate inside the kernel, so the string
operations the Enricher uses are given explicit structural
definitions). -/
abbrev Str := List Char

/-- One entry of the name cache: `{"main_id": string|null, "ids": [...]}`
(`enrich_with_simbad_names.py`). -/
structure CacheEntry where
  main_id : Option Str
  ids : List Str
deriving DecidableEq

/-- Python truthiness of a string: `None` and `""` are falsy. -/
def strTruthy (s : Str) : Bool := !s.isEmpty

/-- Python `str.strip()`: remove leading and trailing whitespace. -/
def pyStrip (s : Str) : Str :=
  ((s.dropWhile Char.isWhitespace).reverse.dropWhile Char.isWhitespace).reverse

/-- Python `str.upper()`. -/
def pyUpper (s : Str) : Str := s.map Char.toUpper

/-- `x.strip().upper().startswith("HIP")` (line 206). -/
def isHIPAlias (s : Str) : Bool :=
  "HIP".data.isPrefixOf (pyUpper (pyStrip s))

/-- Lines 204-207: `next((x for x in ids if not
x.strip().upper().startswith("HIP")), None)` followed by
`name = alt or None` (an empty-string alias is falsy and becomes null). -/
def altName (ids : List Str) : Option Str :=
  match ids.find? (fun x => !(isHIPAlias x)) with
  | some alt => if strTruthy alt then some alt else none
  | none => none

/-- The name chosen for a record (lines 194-208): nothing without a hip
or a cache entry; the cached `main_id` when truthy (non-null AND
non-empty); otherwise the first non-`HIP`-prefixed alias. The cache is
abstracted as a map from the hip number to its entry (`"HIP:<n>"` keys
are in bijection with `ℤ`). -/
def nameFromCache (cache : ℤ → Option CacheEntry) : Option ℤ → Option Str
  | none => none
  | some h =>
      match cache h with
      | none => none
      | some c =>
          match c.main_id with
          | some m => if strTruthy m then some m else altName c.ids
          | none => altName c.ids

/-- Modelled from the claim's words, for comparison with `nameFromCache`:
name is the canonical `main_id` whenever it is non-null, otherwise the
first alias that is not a HIP identifier, otherwise null. -/
def claimedName (cache : ℤ → Option CacheEntry) : Option ℤ → Option Str
  | none => none
  | some h =>
      match cache h with
      | none => none
      | some c =>
          match c.main_id with
          | some m => some m
          | none => c.ids.find? (fun x => !(isHIPAlias x))

/-- `RETRIES = 3` (line 17). -/
def RETRIES : ℕ := 3

/-- The retry loop of `query_simbad_for_hips` (lines 39-82): attempt
numbers count up from 1; a success returns immediately; an error with
attempts remaining retries (after `time.sleep(RETRY_DELAY)`), the last
error is re-raised. The remote call is the oracle `attempt ↦ result`. -/
def runAttempts {ε α : Type} (oracle : ℕ → Except ε α) :
    ℕ → ℕ → Except ε α
  | attempt, rest =>
      match oracle attempt, rest with
      | .ok a, _ => .ok a
      | .error e, 0 => .error e
      | .error _, r + 1 => runAttempts oracle (attempt + 1) r

/-- `query_simbad_for_hips`: up to `RETRIES` attempts starting at 1. -/
def query_simbad_for_hips {ε α : Type} (oracle : ℕ → Except ε α) :
    Except ε α :=
  runAttempts oracle 1 (RETRIES - 1)

/-- One row of a SIMBAD result table: its `MAIN_ID` and raw `IDS`. -/
structure SimRow where
  main : Option Str
  idsRaw : Option Str
deriving DecidableEq

/-- Python `str.split(sep)` for a one-character separator:
`"".split(sep) = [""]`, separators are not merged. -/
def splitOnChar (sep : Char) : Str → List Str
  | [] => [[]]
  | c :: rest =>
      let r := splitOnChar sep rest
      if c = sep then [] :: r
      else
        match r with
        | [] => [[c]]
        | h :: t => (c :: h) :: t

/-- The id list of a row (`ids_list`, lines 153-159): split the raw
`IDS` string on `"|"` when it contains one, else on `";"`, stripping
tokens and dropping empty ones. -/
def idsOf (row : SimRow) : List Str :=
  match row.idsRaw with
  | none => []
  | some s =>
      if s.contains '|' then
        ((splitOnChar '|' s).map pyStrip).filter (fun t => t ≠ [])
      else ((splitOnChar ';' s).map pyStrip).filter (fun t => t ≠ [])

/-- The value of an all-digit string, `none` otherwise. -/
def digitsVal (s : Str) : Option ℕ :=
  if s = [] then none
  else if s.all Char.isDigit then
    some (s.foldl (fun acc c => 10 * acc + (c.toNat - 48)) 0)
  else none

/-- Python `int(str)` on a compact decimal string: an optional sign
followed by digits; anything else raises (`none`). -/
def pyIntOfStr (s : Str) : Option ℤ :=
  match s with
  | '-' :: rest => (digitsVal rest).map (fun n => -(n : ℤ))
  | '+' :: rest => (digitsVal rest).map (fun n => (n : ℤ))
  | _ => (digitsVal s).map (fun n => (n : ℤ))

/-- Lines 161-170: find the first token that (spaces removed,
upper-cased) starts with `"HIP"` and whose remainder parses as an
integer (`int(tok[3:])`); `int()` failures fall through to the next
token (`except: pass`). -/
def hipKeyOf (ids : List Str) : Option ℤ :=
  ids.findSome? (fun token =>
    let tok := token.filter (fun c => c ≠ ' ')
    if "HIP".data.isPrefixOf (pyUpper tok) then pyIntOfStr (tok.drop 3)
    else none)

/-- The cache as an insertion-ordered dict keyed by hip number. -/
abbrev Cache := List (ℤ × CacheEntry)

/-- Python dict assignment `cache[k] = v`. -/
def cacheSet (m : Cache) (k : ℤ) (v : CacheEntry) : Cache :=
  match m with
  | [] => [(k, v)]
  | (k', v') :: rest =>
      if k' = k then (k, v) :: rest else (k', v') :: cacheSet rest k v

/-- `cache.get(k)`. -/
def cacheGet (m : Cache) (k : ℤ) : Option CacheEntry :=
  match m with
  | [] => none
  | (k', v) :: rest => if k' = k then some v else cacheGet rest k

/-- Lines 143-146: `for h in batch: cache[f"HIP:{h}"] = {"main_id":
None, "ids": []}` — the fallback for a failed or empty batch query. -/
def markNone (cache : Cache) (batch : List ℤ) : Cache :=
  batch.foldl (fun c h => cacheSet c h ⟨none, []⟩) cache

/-- Lines 150-182: store one result row in the cache, keyed by the HIP
number found in its ids, falling back to the first hip of the batch. -/
def processRow (batch0 : ℤ) (c : Cache) (row : SimRow) : Cache :=
  cacheSet c ((hipKeyOf (idsOf row)).getD batch0)
    ⟨row.main, idsOf row⟩

/-- The possible outcomes of `Simbad.query_objects` for one batch. -/
abbrev QueryResult := Except String (Option (List SimRow))

/-- One iteration of the batch loop (lines 130-185): an exception is
caught (`tbl = None`) and, like a `None` table, marks every hip of the
batch as unresolved; otherwise every row is stored. -/
def processBatch (c : Cache) (batch : List ℤ) (res : QueryResult) : Cache :=
  match res with
  | .error _ => markNone c batch
  | .ok none => markNone c batch
  | .ok (some rows) => rows.foldl (processRow (batch.headD 0)) c

/-- The whole batch loop: every batch is processed in order, whatever
the outcomes; the loop itself never raises. -/
def runBatches (c : Cache) : List (List ℤ × QueryResult) → Cache
  | [] => c
  | (b, res) :: rest => runBatches (processBatch c b res) rest

/-- JSON scalar values as the Enricher sees them after `json.loads`. -/
inductive JVal where
  | jnull
  | jbool (b : Bool)
  | jint (n : ℤ)
  | jnum (q : ℚ)
  | jstr (s : Str)
deriving DecidableEq

/-- A parsed JSON object: an insertion-ordered association list, as
Python dicts are. -/
abbrev JObj := List (String × JVal)

/-- `rec.get(k)`. -/
def jGet (r : JObj) (k : String) : Option JVal :=
  match r with
  | [] => none
  | (k', v) :: rest => if k' = k then some v else jGet rest k

/-- `rec[k] = v`: overwrite in place, or append a new key. -/
def jSet (r : JObj) (k : String) (v : JVal) : JObj :=
  match r with
  | [] => [(k, v)]
  | (k', v') :: rest =>
      if k' = k then (k, v) :: rest else (k', v') :: jSet rest k v

/-- Truncation toward zero, the semantics of Python `int(float)`. -/
def pyTrunc (q : ℚ) : ℤ := if q < 0 then ⌈q⌉ else ⌊q⌋

/-- Python `int(x)` on a JSON value: `none` models a raised exception. -/
def pyInt : JVal → Option ℤ
  | .jint n => some n
  | .jnum q => some (pyTrunc q)
  | .jbool b => some (if b then 1 else 0)
  | .jstr s => pyIntOfStr s
  | .jnull => none

/-- `hip = rec.get("hip")` and, when it is not `None`, `int(hip)`
(line 197): `.ok none` when the record has no usable hip, `.error` when
`int()` raises (which would crash the run). -/
def hipOf (r : JObj) : Except Unit (Option ℤ) :=
  match jGet r "hip" with
  | none => .ok none
  | some .jnull => .ok none
  | some v =>
      match pyInt v with
      | some n => .ok (some n)
      | none => .error ()

/-- The JSON value written for a chosen name (`rec["name"] = name`). -/
def jsonOfName : Option Str → JVal
  | none => .jnull
  | some s => .jstr s

/-- Lines 193-209 for a single record: compute the name from the cache
and store it under `"name"`. -/
def enrichRecord (cache : ℤ → Option CacheEntry) (r : JObj) : Option JObj :=
  match hipOf r with
  | .error _ => none
  | .ok h => some (jSet r "name" (jsonOfName (nameFromCache cache h)))

/-- The whole enrichment pass over the parsed records, in order: the
`for rec in records` loop building `out_lines`; a raised `int()` aborts
the whole pass. -/
def enrichAll (cache : ℤ → Option CacheEntry) : List JObj →
    Option (List JObj)
  | [] => some []
  | r :: rest =>
      match enrichRecord cache r with
      | none => none
      | some r' =>
          match enrichAll cache rest with
          | none => none
          | some out => some (r' :: out)

end Enrich

namespace Synth

/-- `START_AFTER_HIP = 50` (`make_10k_after_hip50.py` line 11). -/
def START_AFTER_HIP : ℤ := 50

/-- `NUM_NEW = 10_000` (line 10). -/
def NUM_NEW : ℕ := 10000

/-- The template fields `make_new_star_from_template` reads. -/
structure Template where
  ra : Option ℚ
  dec : Option ℚ
  dist_pc : Option ℚ
  vmag : Option ℚ
  plx : Option ℚ
  bv : Option ℚ
deriving DecidableEq

/-- The random draws one call of `make_new_star_from_template` may
consume, passed in explicitly in place of `np.random`. -/
structure Draws where
  ra_normal : ℚ
  ra_uniform : ℚ
  dec_normal : ℚ
  dec_uniform : ℚ
  dist_normal : ℚ
  dist_uniform : ℚ
  vmag_normal : ℚ
  vmag_sample : ℚ
  bv_normal : ℚ
  bv_sample : ℚ
deriving DecidableEq

/-- A synthesized star record (lines 119-130). -/
structure StarRec where
  hip : ℤ
  ra : ℚ
  dec : ℚ
  dist_pc : Option ℚ
  vmag : Option ℚ
  plx : Option ℚ
  bv : Option ℚ
  sp_type : Option String
  absmag : Option ℚ
  temp_k : Option ℚ
deriving DecidableEq

/-- `ballesteros_temp_from_bv` (lines 38-50): the Ballesteros formula;
a zero denominator (`ZeroDivisionError`, caught) gives `None`. -/
def ballesteros_temp_from_bv (b : ℚ) : Option ℚ :=
  if 0.92 * b + 1.7 = 0 ∨ 0.92 * b + 0.62 = 0 then none
  else some (4600 * (1 / (0.92 * b + 1.7) + 1 / (0.92 * b + 0.62)))

/-- Local `ra` of `make_new_star_from_template` (lines 66-69):
`Tiler.pymod` is Python's float `%`. -/
def raOf (tpl : Template) (d : Draws) : ℚ :=
  match tpl.ra with
  | none => d.ra_uniform
  | some a => Tiler.pymod (a + d.ra_normal) 360

/-- Local `dec` (lines 71-74). -/
def decOf (tpl : Template) (d : Draws) : ℚ :=
  match tpl.dec with
  | none => d.dec_uniform
  | some v => max (-90) (min 90 (v + d.dec_normal))

/-- Local `dist_pc` (lines 76-83): the truthiness test
`if tem_dist and tem_dist > 0` is `0 < t` on a present value; `pow10 x`
stands for `10 ** x`. -/
def distOf (pow10 : ℚ → ℚ) (tpl : Template) (d : Draws) : ℚ :=
  match tpl.dist_pc with
  | some t => if 0 < t then max 1 (t * pow10 d.dist_normal)
              else pow10 d.dist_uniform
  | none => pow10 d.dist_uniform

/-- Local `vmag` (lines 88-94). -/
def vmagOf (tpl : Template) (d : Draws) : ℚ :=
  match tpl.vmag with
  | some v => max (-2) (v + d.vmag_normal)
  | none => max (-2) (min 18 d.vmag_sample)

/-- Local `bv` (lines 96-105): perturb or sample (never NaN over ℚ),
then clamp to `[-0.5, 2]`. -/
def bvOf (tpl : Template) (d : Draws) : ℚ :=
  max (-0.5) (min 2
    (match tpl.bv with
     | some b => b + d.bv_normal
     | none => d.bv_sample))

/-- `make_new_star_from_template` (lines 53-131): `log10` stands for
`math.log10`; `plx = 1000/dist_pc if dist_pc > 0 else None` (line 86),
`absmag = vmag - 5*(log10(dist_pc) - 1)` when `dist_pc` is truthy and
positive (lines 108-113), `temp_k` from the clamped `bv` (line 116). -/
def make_new_star_from_template (pow10 log10 : ℚ → ℚ) (tpl : Template)
    (d : Draws) (new_hip : ℤ) : StarRec :=
  { hip := new_hip
    ra := raOf tpl d
    dec := decOf tpl d
    dist_pc := some (distOf pow10 tpl d)
    vmag := some (vmagOf tpl d)
    plx := if 0 < distOf pow10 tpl d
           then some (1000 / distOf pow10 tpl d) else none
    bv := some (bvOf tpl d)
    sp_type := none
    absmag := if 0 < distOf pow10 tpl d
              then some (vmagOf tpl d - 5 * (log10 (distOf pow10 tpl d) - 1))
              else none
    temp_k := ballesteros_temp_from_bv (bvOf tpl d) }

/-- The hip-candidate loop of `main` (lines 173-186): iterate candidates
upward, skip collisions with `existing_hips`, record a chosen candidate
and add it to `existing_hips`; `fuel` is the remaining iteration budget
(`max_iterations - iter_count`), `num` the target count (`NUM_NEW`).
Returns the chosen hip numbers in creation order. -/
def loopGo (existing : List ℤ) (cand : ℤ) (created num : ℕ) :
    ℕ → List ℤ
  | 0 => []
  | fuel + 1 =>
      if created < num then
        if cand ∈ existing then loopGo existing (cand + 1) created num fuel
        else cand :: loopGo (cand :: existing) (cand + 1) (created + 1) num fuel
      else []

/-- `existing_hips`: the hips present in the input catalogue (records
whose `hip` field is null contribute nothing, lines 148-153). -/
def existingHips (hips : List (Option ℤ)) : List ℤ := hips.filterMap id

/-- The synthesized records: the `k`-th chosen hip is built from the
`k`-th template choice (`random.choice(templates)`) and the `k`-th
bundle of draws. -/
def genRecords (pow10 log10 : ℚ → ℚ) (choice : ℕ → Template)
    (draws : ℕ → Draws) (existing : List ℤ) (cand : ℤ)
    (num fuel : ℕ) : List StarRec :=
  ((loopGo existing cand 0 num fuel).enum).map
    (fun e => make_new_star_from_template pow10 log10 (choice e.1)
      (draws e.1) e.2)

/-- The full synthesis of `main`: `NUM_NEW` stars starting at candidate
`START_AFTER_HIP + 1` with budget `NUM_NEW * 5`. -/
def synthRecords (pow10 log10 : ℚ → ℚ) (choice : ℕ → Template)
    (draws : ℕ → Draws) (hips : List (Option ℤ)) : List StarRec :=
  genRecords pow10 log10 choice draws (existingHips hips)
    (START_AFTER_HIP + 1) NUM_NEW (NUM_NEW * 5)

end Synth

namespace Tiler

theorem pymod_eq_fract (x y : ℚ) (hy : y ≠ 0) :
    pymod x y = y * Int.fract (x / y) := by
  unfold pymod Int.fract
  field_simp

theorem pymod_nonneg (x : ℚ) {y : ℚ} (hy : 0 < y) : 0 ≤ pymod x y := by
  rw [pymod_eq_fract x y hy.ne']
  exact mul_nonneg hy.le (Int.fract_nonneg _)

theorem pymod_lt (x : ℚ) {y : ℚ} (hy : 0 < y) : pymod x y < y := by
  rw [pymod_eq_fract x y hy.ne']
  calc y * Int.fract (x / y) < y * 1 :=
        (mul_lt_mul_left hy).mpr (Int.fract_lt_one _)
    _ = y := mul_one y

theorem wrapRA_nonneg (ra : ℚ) : 0 ≤ wrapRA ra :=
  pymod_nonneg _ (by norm_num)

theorem wrapRA_lt (ra : ℚ) : wrapRA ra < 360 :=
  pymod_lt _ (by norm_num)

theorem appendTile_get_same (m : TileMap) (k : ℤ × ℤ) (r : RawRecord) :
    tileGet (appendTile m k r) k = tileGet m k ++ [r] := by
  induction m with
  | nil => simp [appendTile, tileGet]
  | cons e rest ih =>
      obtain ⟨k', v⟩ := e
      by_cases h : k' = k
      · simp [appendTile, tileGet, h]
      · simp [appendTile, tileGet, h, ih]

theorem appendTile_get_other (m : TileMap) (k k' : ℤ × ℤ) (r : RawRecord)
    (hne : k' ≠ k) : tileGet (appendTile m k r) k' = tileGet m k' := by
  have hne' : k ≠ k' := Ne.symm hne
  induction m with
  | nil => simp [appendTile, tileGet, hne']
  | cons e rest ih =>
      obtain ⟨k₀, v⟩ := e
      by_cases h : k₀ = k
      · subst h
        simp [appendTile, tileGet, hne']
      · by_cases h' : k₀ = k'
        · subst h'
          simp [appendTile, tileGet, h, hne]
        · simp [appendTile, tileGet, h, h', ih]

theorem foldl_step_get (lines : List Line) :
    ∀ (m : TileMap) (k : ℤ × ℤ),
      tileGet (lines.foldl step m) k =
        tileGet m k ++
          ((lines.filterMap parseLine).filter
            (fun e => e.2 = k)).map Prod.fst := by
  induction lines with
  | nil => intro m k; simp
  | cons ln rest ih =>
      intro m k
      cases hp : parseLine ln with
      | none => simp [step, hp, ih]
      | some rk =>
          obtain ⟨r, k₀⟩ := rk
          by_cases hk : k₀ = k
          · subst hk
            simp [step, hp, ih, appendTile_get_same]
          · simp [step, hp, ih, appendTile_get_other _ _ _ _ (Ne.symm hk), hk]

/-- The central characterisation: the tile of key `k` holds exactly the
surviving records whose key is `k`, in input order. -/
theorem contentOf_eq_filter (lines : List Line) (k : ℤ × ℤ) :
    contentOf lines k =
      ((validKeyed lines).filter (fun e => e.2 = k)).map Prod.fst := by
  have h := foldl_step_get lines [] k
  simpa [contentOf, buildTiles, validKeyed, tileGet] using h

theorem appendTile_keys (m : TileMap) (k : ℤ × ℤ) (r : RawRecord) :
    (appendTile m k r).map Prod.fst =
      if k ∈ m.map Prod.fst then m.map Prod.fst else m.map Prod.fst ++ [k] := by
  induction m with
  | nil => simp [appendTile]
  | cons e rest ih =>
      obtain ⟨k₀, v⟩ := e
      by_cases h : k₀ = k
      · subst h
        simp [appendTile]
      · simp [appendTile, h, ih, Ne.symm h]
        by_cases hmem : k ∈ rest.map Prod.fst <;> simp [hmem, Ne.symm h]

theorem step_keys_nodup (m : TileMap) (ln : Line)
    (h : (m.map Prod.fst).Nodup) : ((step m ln).map Prod.fst).Nodup := by
  cases hp : parseLine ln with
  | none => simpa [step, hp] using h
  | some rk =>
      obtain ⟨r, k⟩ := rk
      rw [step, hp]
      rw [appendTile_keys]
      by_cases hmem : k ∈ m.map Prod.fst
      · simpa [hmem] using h
      · simp only [hmem, if_false]
        exact List.Nodup.append h (List.nodup_singleton k)
          (fun a ha hb => hmem ((List.mem_singleton.mp hb) ▸ ha))

theorem foldl_step_keys_nodup (lines : List Line) :
    ∀ (m : TileMap), (m.map Prod.fst).Nodup →
      ((lines.foldl step m).map Prod.fst).Nodup := by
  induction lines with
  | nil => intro m h; simpa using h
  | cons ln rest ih =>
      intro m h
      exact ih (step m ln) (step_keys_nodup m ln h)

theorem buildTiles_keys_nodup (lines : List Line) :
    ((buildTiles lines).map Prod.fst).Nodup :=
  foldl_step_keys_nodup lines [] (by simp)

theorem tileGet_mem_keys (m : TileMap) (k : ℤ × ℤ)
    (h : tileGet m k ≠ []) : k ∈ m.map Prod.fst := by
  induction m with
  | nil => simp [tileGet] at h
  | cons e rest ih =>
      obtain ⟨k₀, v⟩ := e
      by_cases hk : k₀ = k
      · subst hk; simp
      · simp only [tileGet, hk, if_false] at h
        simpa using Or.inr (ih h)

theorem mem_entry_eq_tileGet (m : TileMap)
    (hnd : (m.map Prod.fst).Nodup) :
    ∀ e ∈ m, e.2 = tileGet m e.1 := by
  induction m with
  | nil => intro e he; simp at he
  | cons e₀ rest ih =>
      obtain ⟨k₀, v₀⟩ := e₀
      intro e he
      rcases List.mem_cons.mp he with h | h
      · subst h; simp [tileGet]
      · have hk : k₀ ≠ e.1 := by
          intro hEq
          have hmem : e.1 ∈ rest.map Prod.fst := List.mem_map_of_mem Prod.fst h
          rw [← hEq] at hmem
          exact (List.nodup_cons.mp hnd).1 hmem
        have := ih (List.nodup_cons.mp hnd).2 e h
        simpa [tileGet, hk] using this

end Tiler

/-- Grouping a list by a key function and concatenating the groups over a
duplicate-free, covering list of keys permutes the original list. -/
theorem filter_key_partition {α κ : Type} [DecidableEq κ] :
    ∀ (K : List κ), K.Nodup → ∀ (l : List α) (f : α → κ),
      (∀ x ∈ l, f x ∈ K) →
      (K.map (fun k => l.filter (fun x => f x = k))).join.Perm l := by
  intro K
  induction K with
  | nil =>
      intro _ l f hf
      cases l with
      | nil => simp
      | cons a t => exact absurd (hf a (by simp)) (by simp)
  | cons k K' ih =>
      intro hnd l f hf
      have hknotin : k ∉ K' := (List.nodup_cons.mp hnd).1
      have hnd' : K'.Nodup := (List.nodup_cons.mp hnd).2
      have hstep : ∀ k' ∈ K',
          l.filter (fun x => f x = k') =
            (l.filter (fun x => !(decide (f x = k)))).filter
              (fun x => f x = k') := by
        intro k' hk'
        have hkk' : k' ≠ k := fun hEq => hknotin (hEq ▸ hk')
        rw [List.filter_filter]
        refine (List.filter_congr ?_)
        intro a _
        by_cases hfa : f a = k'
        · simp [hfa, hkk']
        · simp [hfa]
      have hsub : ∀ x ∈ l.filter (fun x => !(decide (f x = k))), f x ∈ K' := by
        intro x hx
        have hx' := List.mem_filter.mp hx
        have hne : f x ≠ k := by simpa using hx'.2
        exact (List.mem_cons.mp (hf x hx'.1)).resolve_left hne
      have ihl' := ih hnd' (l.filter (fun x => !(decide (f x = k)))) f hsub
      simp only [List.map_cons, List.join_cons]
      rw [List.map_congr_left hstep]
      exact (ihl'.append_left _).trans
        (List.filter_append_perm (fun x => decide (f x = k)) l)

namespace Tiler

theorem mem_validKeyed_key (lines : List Line) :
    ∀ e ∈ validKeyed lines, keyOf e.1 = some e.2 := by
  intro e he
  obtain ⟨ln, _, hp⟩ := List.mem_filterMap.mp he
  cases ln with
  | none => simp [parseLine] at hp
  | some r =>
      simp only [parseLine, Option.bind_some] at hp
      obtain ⟨k, hk, hek⟩ := Option.map_eq_some'.mp hp
      rw [← hek]
      exact hk

theorem mem_contentOf_iff (lines : List Line) (r : RawRecord) (k : ℤ × ℤ) :
    r ∈ contentOf lines k ↔
      r ∈ validRecords lines ∧ keyOf r = some k := by
  rw [contentOf_eq_filter]
  constructor
  · intro hr
    obtain ⟨e, he, her⟩ := List.mem_map.mp hr
    have he' := List.mem_filter.mp he
    have hkey := mem_validKeyed_key lines e he'.1
    have hek : e.2 = k := by simpa using he'.2
    constructor
    · rw [← her]
      exact List.mem_map_of_mem Prod.fst he'.1
    · rw [← her, hkey, hek]
  · rintro ⟨hr, hk⟩
    obtain ⟨e, he, her⟩ := List.mem_map.mp hr
    have hkey := mem_validKeyed_key lines e he
    have hek : e.2 = k := by
      rw [her] at hkey
      exact Option.some_injective _ (hkey.symm.trans hk)
    refine List.mem_map.mpr ⟨e, List.mem_filter.mpr ⟨he, by simp [hek]⟩, her⟩

theorem buildTiles_map_snd (lines : List Line) :
    (buildTiles lines).map Prod.snd =
      ((buildTiles lines).map Prod.fst).map (contentOf lines) := by
  rw [List.map_map]
  exact List.map_congr_left
    (fun e he => mem_entry_eq_tileGet _ (buildTiles_keys_nodup lines) e he)

theorem key_mem_buildTiles_keys (lines : List Line) :
    ∀ e ∈ validKeyed lines, e.2 ∈ (buildTiles lines).map Prod.fst := by
  intro e he
  have hmem : e.1 ∈ contentOf lines e.2 :=
    (mem_contentOf_iff lines e.1 e.2).mpr
      ⟨List.mem_map_of_mem Prod.fst he, mem_validKeyed_key lines e he⟩
  exact tileGet_mem_keys _ _ (List.ne_nil_of_mem hmem)

end Tiler

end GSC

namespace GSC

/-- C1: for every rational right ascension `ra` (negative and `≥ 360`
included), the wrapped value `((ra % 360) + 360) % 360` computed by the
Tiler lies in `[0, 360)` and the tile index
`tx = floor(wrapped / TILE_DEG)` lies in `[0, 90)` for `TILE_DEG = 4`. -/
theorem tiler_wrap_and_tx_in_range (ra : ℚ) :
    0 ≤ Tiler.wrapRA ra ∧ Tiler.wrapRA ra < 360 ∧
      0 ≤ Tiler.txOf ra ∧ Tiler.txOf ra < 90 := by
  refine ⟨Tiler.wrapRA_nonneg ra, Tiler.wrapRA_lt ra, ?_, ?_⟩
  · exact Int.floor_nonneg.mpr
      (div_nonneg (Tiler.wrapRA_nonneg ra) (by norm_num [Tiler.TILE_DEG]))
  · refine Int.floor_lt.mpr ?_
    have h := Tiler.wrapRA_lt ra
    rw [div_lt_iff (by norm_num [Tiler.TILE_DEG])]
    push_cast
    norm_num [Tiler.TILE_DEG]
    linarith

/-- C2 counterexample: at the boundary `dec = 90` the Tiler computes
`ty = floor((90 + 90)/4) = 45`, which is NOT strictly below `45`, contrary
to the claim that `ty < 180/TILE_DEG` for all `dec` in `[-90, 90]`
including `dec = 90`. -/
theorem tiler_ty_boundary_counterexample :
    Tiler.tyOf 90 = 45 ∧ ¬ Tiler.tyOf 90 < 45 := by
  constructor
  · norm_num [Tiler.tyOf, Tiler.TILE_DEG]
  · norm_num [Tiler.tyOf, Tiler.TILE_DEG]

/-- C2 amended: for every declination `dec` in `[-90, 90]`, the tile index
`ty = floor((dec + 90)/TILE_DEG)` lies in `[0, 45]`; it is strictly below
`45` exactly on `[-90, 90)`, while the single boundary point `dec = 90`
yields `ty = 45`. -/
theorem tiler_ty_in_range (dec : ℚ) (hlo : -90 ≤ dec) (hhi : dec ≤ 90) :
    0 ≤ Tiler.tyOf dec ∧ Tiler.tyOf dec ≤ 45 ∧
      (dec < 90 → Tiler.tyOf dec < 45) := by
  refine ⟨?_, ?_, ?_⟩
  · exact Int.floor_nonneg.mpr
      (div_nonneg (by linarith) (by norm_num [Tiler.TILE_DEG]))
  · have h46 : Tiler.tyOf dec < 46 := by
      refine Int.floor_lt.mpr ?_
      rw [div_lt_iff₀ (by norm_num [Tiler.TILE_DEG])]
      push_cast
      norm_num [Tiler.TILE_DEG]
      linarith
    omega
  · intro h
    refine Int.floor_lt.mpr ?_
    rw [div_lt_iff (by norm_num [Tiler.TILE_DEG])]
    push_cast
    norm_num [Tiler.TILE_DEG]
    linarith

/-- Witness for the amended C2 theorem at `dec = -90`. -/
theorem tiler_ty_in_range_witness :
    0 ≤ Tiler.tyOf (-90) ∧ Tiler.tyOf (-90) ≤ 45 ∧
      ((-90 : ℚ) < 90 → Tiler.tyOf (-90) < 45) :=
  tiler_ty_in_range (-90) (by norm_num) (by norm_num)

/-- C3: tiling partitions the valid records. A record lies in the tile of
key `k` exactly when it is valid and its key is `k` (so in exactly one
tile); tiles of distinct keys share no record; the concatenation of all
tile contents is a permutation of the valid records; and each tile's
contents is a sublist of the valid records, i.e. appears in input order. -/
theorem tiler_tiling_is_partition (lines : List Tiler.Line) :
    (∀ (r : Tiler.RawRecord) (k : ℤ × ℤ),
        r ∈ Tiler.contentOf lines k ↔
          r ∈ Tiler.validRecords lines ∧ Tiler.keyOf r = some k) ∧
    (∀ (k k' : ℤ × ℤ), k ≠ k' → ∀ r : Tiler.RawRecord,
        r ∈ Tiler.contentOf lines k → r ∉ Tiler.contentOf lines k') ∧
    ((Tiler.buildTiles lines).map Prod.snd).join.Perm
      (Tiler.validRecords lines) ∧
    (∀ k : ℤ × ℤ,
        (Tiler.contentOf lines k).Sublist (Tiler.validRecords lines)) := by
  refine ⟨Tiler.mem_contentOf_iff lines, ?_, ?_, ?_⟩
  · intro k k' hkk r hk hk'
    have h1 := ((Tiler.mem_contentOf_iff lines r k).mp hk).2
    have h2 := ((Tiler.mem_contentOf_iff lines r k').mp hk').2
    exact hkk (Option.some_injective _ (h1.symm.trans h2))
  · have hperm := filter_key_partition ((Tiler.buildTiles lines).map Prod.fst)
      (Tiler.buildTiles_keys_nodup lines) (Tiler.validKeyed lines) Prod.snd
      (Tiler.key_mem_buildTiles_keys lines)
    have hmap := hperm.map Prod.fst
    rw [Tiler.buildTiles_map_snd]
    have hrw : (((Tiler.buildTiles lines).map Prod.fst).map
        (Tiler.contentOf lines)).join =
        (((((Tiler.buildTiles lines).map Prod.fst).map
          (fun k => (Tiler.validKeyed lines).filter
            (fun e => e.2 = k))).join).map Prod.fst) := by
      rw [List.map_flatten]
      simp only [List.map_map]
      exact congrArg List.flatten (List.map_congr_left
        (fun e _ => Tiler.contentOf_eq_filter lines e.1))
    rw [hrw]
    exact hmap
  · intro k
    rw [Tiler.contentOf_eq_filter]
    exact (List.filter_sublist (Tiler.validKeyed lines)).map Prod.fst

/-- Witness for C3, applying the partition theorem at a concrete input. -/
theorem tiler_tiling_is_partition_witness :
    (Tiler.contentOf [none] (0, 0)).Sublist (Tiler.validRecords [none]) :=
  (tiler_tiling_is_partition [none]).2.2.2 (0, 0)

/-- C7: the Tiler never fails on bad input. A line is skipped exactly
when it is malformed JSON or its record lacks numeric `ra`/`dec`; a
skipped line leaves the whole tiling untouched (so tiling of the
remaining records proceeds normally), and a record without numeric
coordinates belongs to no tile of any run. -/
theorem tiler_skips_bad_lines (l₁ l₂ : List Tiler.Line) (ln : Tiler.Line)
    (hbad : Tiler.parseLine ln = none) :
    Tiler.buildTiles (l₁ ++ ln :: l₂) = Tiler.buildTiles (l₁ ++ l₂) ∧
    Tiler.validRecords (l₁ ++ ln :: l₂) = Tiler.validRecords (l₁ ++ l₂) ∧
    (∀ (ln' : Tiler.Line), Tiler.parseLine ln' = none ↔
        (ln' = none ∨ ∃ r, ln' = some r ∧ Tiler.coordsOf r = none)) ∧
    (∀ (r : Tiler.RawRecord), Tiler.coordsOf r = none →
        ∀ (lines : List Tiler.Line) (k : ℤ × ℤ),
          r ∉ Tiler.contentOf lines k) := by
  refine ⟨?_, ?_, ?_, ?_⟩
  · simp [Tiler.buildTiles, List.foldl_append, Tiler.step, hbad]
  · simp [Tiler.validRecords, Tiler.validKeyed, List.filterMap_append,
      List.filterMap_cons, hbad]
  · intro ln'
    cases ln' with
    | none => simp [Tiler.parseLine]
    | some r =>
        simp only [Tiler.parseLine, Option.bind_some, Option.map_eq_none',
          Tiler.keyOf]
        simp
  · intro r hr lines k hmem
    have hkey := ((Tiler.mem_contentOf_iff lines r k).mp hmem).2
    rw [Tiler.keyOf, hr] at hkey
    simp at hkey

/-- Witness for C7 at the concrete malformed line `none`. -/
theorem tiler_skips_bad_lines_witness :
    Tiler.buildTiles ([] ++ none :: []) = Tiler.buildTiles ([] ++ []) ∧
    Tiler.validRecords ([] ++ none :: []) = Tiler.validRecords ([] ++ []) ∧
    (∀ (ln' : Tiler.Line), Tiler.parseLine ln' = none ↔
        (ln' = none ∨ ∃ r, ln' = some r ∧ Tiler.coordsOf r = none)) ∧
    (∀ (r : Tiler.RawRecord), Tiler.coordsOf r = none →
        ∀ (lines : List Tiler.Line) (k : ℤ × ℤ),
          r ∉ Tiler.contentOf lines k) :=
  tiler_skips_bad_lines [] [] none rfl

theorem joinSep_append_NL (l : List (List Char)) (h : l ≠ []) :
    Tiler.joinSep l ++ Tiler.NL = (l.map (· ++ Tiler.NL)).flatten := by
  induction l with
  | nil => exact absurd rfl h
  | cons a t ih =>
      cases t with
      | nil => simp [Tiler.joinSep]
      | cons b t' =>
          have ih' := ih (by simp)
          simp only [Tiler.joinSep, List.map_cons, List.flatten_cons,
            List.append_assoc]
          rw [ih']
          simp [List.append_assoc]

/-- C4: both tile files hold the same content. The gzip writer receives
exactly the plain file's content (the serialized records, one per line,
with a trailing newline), so for any correct compressor/decompressor
pair the round-trip recovers the plain file byte-for-byte, and for a
non-empty tile (the only tiles ever written) that content is the
concatenation of the serialized records each followed by a newline. -/
theorem tiler_gzip_roundtrip (gz gunz : List Char → List Char)
    (hcodec : ∀ bs, gunz (gz bs) = bs)
    (dumps : Tiler.RawRecord → List Char) (arr : List Tiler.RawRecord)
    (hne : arr ≠ []) :
    gunz (Tiler.gzContent gz dumps arr) = Tiler.plainContent dumps arr ∧
    Tiler.plainContent dumps arr =
      ((arr.map dumps).map (· ++ Tiler.NL)).flatten := by
  constructor
  · exact hcodec _
  · exact joinSep_append_NL _ (by simpa using hne)

/-- Witness for C4 with the identity codec and a one-record tile. -/
theorem tiler_gzip_roundtrip_witness :
    (fun bs : List Char => bs)
        (Tiler.gzContent (fun bs => bs) (fun _ => ['x'])
          [⟨.absent, .absent, 0⟩]) =
        Tiler.plainContent (fun _ => ['x']) [⟨.absent, .absent, 0⟩] ∧
    Tiler.plainContent (fun _ => ['x']) [⟨.absent, .absent, 0⟩] =
      (([(⟨.absent, .absent, 0⟩ : Tiler.RawRecord)].map
          (fun _ => ['x'])).map (· ++ Tiler.NL)).flatten :=
  tiler_gzip_roundtrip (fun bs => bs) (fun bs => bs) (fun _ => rfl)
    (fun _ => ['x']) _ (by simp)

/-- C5: derived-field dependencies of the normalized catalogue.
`dist_pc` is present only for a present, strictly positive parallax and
then equals `1000 / plx`; `absmag` is present only when `dist_pc` and
`vmag` both are; an absent or non-positive parallax forces both derived
fields to null, while `temp_k` can be non-null on such a record. -/
theorem fetch_derived_field_dependency (log10 : ℚ → ℚ)
    (plx vmag : Option ℚ) :
    (∀ x : ℚ, Fetch.dist_pc plx = some x →
        ∃ p, plx = some p ∧ 0 < p ∧ x = 1000 / p) ∧
    (Fetch.absmag log10 (Fetch.dist_pc plx) vmag ≠ none →
        Fetch.dist_pc plx ≠ none ∧ vmag ≠ none) ∧
    ((plx = none ∨ ∃ p, plx = some p ∧ p ≤ 0) →
        Fetch.dist_pc plx = none ∧
          Fetch.absmag log10 (Fetch.dist_pc plx) vmag = none) ∧
    (Fetch.dist_pc none = none ∧ Fetch.bv_to_temp (some 1) ≠ none) := by
  refine ⟨?_, ?_, ?_, ?_, ?_⟩
  · intro x hx
    match hp : plx with
    | none => simp [Fetch.dist_pc, hp] at hx
    | some p =>
        rw [Fetch.dist_pc] at hx
        split at hx
        · exact ⟨p, rfl, by assumption, (Option.some_injective _ hx).symm⟩
        · exact absurd hx (by simp)
  · intro ha
    cases hd : Fetch.dist_pc plx with
    | none =>
        exfalso
        rw [hd] at ha
        exact ha rfl
    | some dv =>
        cases hv : vmag with
        | none =>
            exfalso
            rw [hd, hv] at ha
            exact ha rfl
        | some mv => exact ⟨by simp [hd], by simp [hv]⟩
  · intro hbad
    have hdist : Fetch.dist_pc plx = none := by
      rcases hbad with h | ⟨p, hp, hple⟩
      · simp [Fetch.dist_pc, h]
      · simp [Fetch.dist_pc, hp, not_lt.mpr hple]
    refine ⟨hdist, ?_⟩
    rw [hdist]
    rfl
  · exact rfl
  · rw [Fetch.bv_to_temp]
    have hden : ¬ ((0.92 : ℚ) * 1 + 1.7 = 0 ∨ (0.92 : ℚ) * 1 + 0.62 = 0) := by
      norm_num
    rw [if_neg hden]
    exact fun h => Option.noConfusion h

/-- Witness for C5 at an absent parallax. -/
theorem fetch_derived_field_dependency_witness :
    Fetch.dist_pc none = none ∧
      Fetch.absmag id (Fetch.dist_pc none) (some 3) = none :=
  (fetch_derived_field_dependency id none (some 3)).2.2.1 (Or.inl rfl)

/-- C8 counterexample: the code tests `if c.get("main_id"):` — Python
truthiness, not non-nullness. For a cache entry whose `main_id` is the
non-null empty string `""`, the claim says `name = ""`, but the code
falls through to the first non-HIP alias and returns `"Sirius"`. -/
theorem enrich_name_truthiness_counterexample :
    Enrich.nameFromCache
        (fun h => if h = 1 then some ⟨some "".data, ["Sirius".data]⟩
          else none) (some 1) = some "Sirius".data ∧
    Enrich.claimedName
        (fun h => if h = 1 then some ⟨some "".data, ["Sirius".data]⟩
          else none) (some 1) = some "".data ∧
    Enrich.nameFromCache
        (fun h => if h = 1 then some ⟨some "".data, ["Sirius".data]⟩
          else none) (some 1) ≠
      Enrich.claimedName
        (fun h => if h = 1 then some ⟨some "".data, ["Sirius".data]⟩
          else none) (some 1) := by
  refine ⟨?_, ?_, ?_⟩ <;> decide

/-- C8 amended: for a record whose hip has a cache entry, `name` is the
cached `main_id` when it is non-null AND non-empty; otherwise the first
alias not starting with `HIP` (stripped, upper-cased), itself nulled
when empty; `name` is null when no such alias exists, when the entry is
missing, or when the record has no hip — never an error. -/
theorem enrich_name_rule (cache : ℤ → Option Enrich.CacheEntry) (h : ℤ)
    (c : Enrich.CacheEntry) (hc : cache h = some c) :
    (∀ m, c.main_id = some m → m ≠ [] →
        Enrich.nameFromCache cache (some h) = some m) ∧
    ((c.main_id = none ∨ c.main_id = some []) →
        Enrich.nameFromCache cache (some h) = Enrich.altName c.ids) ∧
    (∀ a, c.ids.find? (fun x => !(Enrich.isHIPAlias x)) = some a →
        a ≠ [] → Enrich.altName c.ids = some a) ∧
    (c.ids.find? (fun x => !(Enrich.isHIPAlias x)) = none →
        Enrich.altName c.ids = none) ∧
    (∀ a, c.ids.find? (fun x => !(Enrich.isHIPAlias x)) = some a →
        a = [] → Enrich.altName c.ids = none) ∧
    (∀ h', cache h' = none → Enrich.nameFromCache cache (some h') = none) ∧
    Enrich.nameFromCache cache none = none := by
  refine ⟨?_, ?_, ?_, ?_, ?_, ?_, rfl⟩
  · intro m hm hne
    simp [Enrich.nameFromCache, hc, hm, Enrich.strTruthy, hne]
  · rintro (hm | hm) <;>
      simp [Enrich.nameFromCache, hc, hm, Enrich.strTruthy]
  · intro a ha hne
    simp [Enrich.altName, ha, Enrich.strTruthy, hne]
  · intro ha
    simp [Enrich.altName, ha]
  · intro a ha hempty
    subst hempty
    simp [Enrich.altName, ha, Enrich.strTruthy]
  · intro h' hq
    simp [Enrich.nameFromCache, hq]

/-- Witness for the amended C8 theorem at a concrete cache. -/
theorem enrich_name_rule_witness :
    Enrich.nameFromCache
        (fun h => if h = 5 then some ⟨some "Vega".data, []⟩ else none) none
      = none :=
  (enrich_name_rule
    (fun h => if h = 5 then some ⟨some "Vega".data, []⟩ else none)
    5 ⟨some "Vega".data, []⟩ (by simp)).2.2.2.2.2.2

/-- C6 counterexample: in `main`'s live batch loop a failing query is
NOT retried and does NOT abort the run — the exception is caught, the
failed batch's hips are cached as `{"main_id": None, "ids": []}`, and
the next batch is still processed (here batch `[2]` succeeds and its
row is cached after batch `[1]` failed). -/
theorem enricher_continues_after_failure_counterexample :
    Enrich.cacheGet
        (Enrich.runBatches []
          [([1], Except.error "boom"),
           ([2], Except.ok
             (some [⟨some "Rigel".data, some "HIP 2;NAME X".data⟩]))])
        2 = some ⟨some "Rigel".data, ["HIP 2".data, "NAME X".data]⟩ ∧
    Enrich.cacheGet
        (Enrich.runBatches []
          [([1], Except.error "boom"),
           ([2], Except.ok
             (some [⟨some "Rigel".data, some "HIP 2;NAME X".data⟩]))])
        1 = some ⟨none, []⟩ := by
  constructor <;> decide

/-- C6 amended: the helper `query_simbad_for_hips` (which `main` never
calls) does retry up to 3 times and re-raises the last error once
retries are exhausted; the live batch loop in `main`, however, catches a
failed query, records `{"main_id": None, "ids": []}` for every hip of
the failed batch, and always proceeds to the subsequent batches. -/
theorem enricher_retry_and_fallback
    (oracle : ℕ → Except String (Option (List Enrich.SimRow)))
    (e₁ e₂ e₃ : String) (h1 : oracle 1 = .error e₁)
    (h2 : oracle 2 = .error e₂) (h3 : oracle 3 = .error e₃) :
    Enrich.query_simbad_for_hips oracle = .error e₃ ∧
    (∀ (a : Option (List Enrich.SimRow))
        (oracle' : ℕ → Except String (Option (List Enrich.SimRow))),
        oracle' 1 = .ok a →
        Enrich.query_simbad_for_hips oracle' = .ok a) ∧
    (∀ (c : Enrich.Cache) (b : List ℤ) (res : Enrich.QueryResult)
        (rest : List (List ℤ × Enrich.QueryResult)),
        Enrich.runBatches c ((b, res) :: rest) =
          Enrich.runBatches (Enrich.processBatch c b res) rest) ∧
    (∀ (c : Enrich.Cache) (b : List ℤ) (e : String),
        Enrich.processBatch c b (.error e) = Enrich.markNone c b) := by
  refine ⟨?_, ?_, fun _ _ _ _ => rfl, fun _ _ _ => rfl⟩
  · simp [Enrich.query_simbad_for_hips, Enrich.RETRIES, Enrich.runAttempts,
      h1, h2, h3]
  · intro a oracle' ho
    simp [Enrich.query_simbad_for_hips, Enrich.RETRIES, Enrich.runAttempts,
      ho]

/-- Witness for the amended C6 theorem with an always-failing oracle. -/
theorem enricher_retry_and_fallback_witness :
    Enrich.query_simbad_for_hips
        (fun _ => (Except.error "down" :
          Except String (Option (List Enrich.SimRow)))) =
      Except.error "down" :=
  (enricher_retry_and_fallback (fun _ => Except.error "down")
    "down" "down" "down" rfl rfl rfl).1

theorem distOf_pos (pow10 : ℚ → ℚ) (tpl : Synth.Template) (d : Synth.Draws)
    (hpow : ∀ x : ℚ, 0 < pow10 x) : 0 < Synth.distOf pow10 tpl d := by
  unfold Synth.distOf
  cases htd : tpl.dist_pc with
  | none => exact hpow _
  | some t =>
      change 0 < if 0 < t then max 1 (t * pow10 d.dist_normal)
        else pow10 d.dist_uniform
      by_cases h0 : 0 < t
      · rw [if_pos h0]
        exact lt_of_lt_of_le one_pos (le_max_left _ _)
      · rw [if_neg h0]
        exact hpow _

theorem loopGo_le :
    ∀ (fuel : ℕ) (existing : List ℤ) (cand : ℤ) (created num : ℕ),
      ∀ h ∈ Synth.loopGo existing cand created num fuel, cand ≤ h := by
  intro fuel
  induction fuel with
  | zero =>
      intro existing cand created num h hh
      simp [Synth.loopGo] at hh
  | succ f ih =>
      intro existing cand created num h hh
      simp only [Synth.loopGo] at hh
      by_cases hcr : created < num
      · rw [if_pos hcr] at hh
        by_cases hmem : cand ∈ existing
        · rw [if_pos hmem] at hh
          have := ih existing (cand + 1) created num h hh
          linarith
        · rw [if_neg hmem] at hh
          rcases List.mem_cons.mp hh with hEq | htail
          · exact le_of_eq hEq.symm
          · have := ih (cand :: existing) (cand + 1) (created + 1) num h htail
            linarith
      · rw [if_neg hcr] at hh
        simp at hh

theorem loopGo_not_mem :
    ∀ (fuel : ℕ) (existing : List ℤ) (cand : ℤ) (created num : ℕ),
      ∀ h ∈ Synth.loopGo existing cand created num fuel, h ∉ existing := by
  intro fuel
  induction fuel with
  | zero =>
      intro existing cand created num h hh
      simp [Synth.loopGo] at hh
  | succ f ih =>
      intro existing cand created num h hh
      simp only [Synth.loopGo] at hh
      by_cases hcr : created < num
      · rw [if_pos hcr] at hh
        by_cases hmem : cand ∈ existing
        · rw [if_pos hmem] at hh
          exact ih existing (cand + 1) created num h hh
        · rw [if_neg hmem] at hh
          rcases List.mem_cons.mp hh with hEq | htail
          · subst hEq; exact hmem
          · intro hx
            exact ih (cand :: existing) (cand + 1) (created + 1) num h htail
              (List.mem_cons_of_mem _ hx)
      · rw [if_neg hcr] at hh
        simp at hh

theorem loopGo_nodup :
    ∀ (fuel : ℕ) (existing : List ℤ) (cand : ℤ) (created num : ℕ),
      (Synth.loopGo existing cand created num fuel).Nodup := by
  intro fuel
  induction fuel with
  | zero => intro existing cand created num; simp [Synth.loopGo]
  | succ f ih =>
      intro existing cand created num
      simp only [Synth.loopGo]
      by_cases hcr : created < num
      · rw [if_pos hcr]
        by_cases hmem : cand ∈ existing
        · rw [if_pos hmem]
          exact ih existing (cand + 1) created num
        · rw [if_neg hmem]
          refine List.nodup_cons.mpr ⟨?_, ih (cand :: existing) (cand + 1)
            (created + 1) num⟩
          intro hx
          exact loopGo_not_mem f (cand :: existing) (cand + 1) (created + 1)
            num cand hx (List.mem_cons_self _ _)
      · rw [if_neg hcr]
        exact List.nodup_nil

/-- C9: every synthesized record has a fresh hip — strictly above the
threshold, absent from the input catalogue's hips, and distinct from
every other synthesized hip — and its derived fields are recomputed from
its own perturbed values: `dist_pc = 1000 / plx` (equivalently
`plx = 1000 / dist_pc`), `absmag = vmag - 5*(log10 dist_pc - 1)`, and
`temp_k` is the Ballesteros temperature of its own clamped `bv`. Stated
for the candidate loop with any starting candidate above the threshold
and any budget; `main` instantiates `cand = 51`, `num = 10000`,
`fuel = 50000`. -/
theorem synth_fresh_and_recomputed (pow10 log10 : ℚ → ℚ)
    (choice : ℕ → Synth.Template) (draws : ℕ → Synth.Draws)
    (existing : List ℤ) (cand : ℤ) (num fuel : ℕ)
    (hcand : Synth.START_AFTER_HIP < cand)
    (hpow : ∀ x : ℚ, 0 < pow10 x) :
    (Synth.loopGo existing cand 0 num fuel).Nodup ∧
    (∀ rec ∈ Synth.genRecords pow10 log10 choice draws existing cand num
        fuel,
      Synth.START_AFTER_HIP < rec.hip ∧ rec.hip ∉ existing ∧
      (∃ dv, rec.dist_pc = some dv ∧ 0 < dv ∧
          rec.plx = some (1000 / dv)) ∧
      (∀ p, rec.plx = some p → rec.dist_pc = some (1000 / p)) ∧
      (∃ v dv, rec.vmag = some v ∧ rec.dist_pc = some dv ∧
          rec.absmag = some (v - 5 * (log10 dv - 1))) ∧
      (∃ b, rec.bv = some b ∧
          rec.temp_k = Synth.ballesteros_temp_from_bv b)) ∧
    ((Synth.genRecords pow10 log10 choice draws existing cand num
        fuel).map Synth.StarRec.hip).Nodup := by
  have hmaphip : (Synth.genRecords pow10 log10 choice draws existing cand
      num fuel).map Synth.StarRec.hip =
      Synth.loopGo existing cand 0 num fuel := by
    unfold Synth.genRecords
    rw [List.map_map]
    have hcomp : (Synth.StarRec.hip ∘ fun e : ℕ × ℤ =>
        Synth.make_new_star_from_template pow10 log10 (choice e.1)
          (draws e.1) e.2) = Prod.snd := by
      funext e
      rfl
    rw [hcomp, List.enum_map_snd]
  refine ⟨loopGo_nodup fuel existing cand 0 num, ?_, ?_⟩
  · intro rec hrec
    obtain ⟨e, he, hmk⟩ := List.mem_map.mp hrec
    have hsnd : e.2 ∈ Synth.loopGo existing cand 0 num fuel := by
      have hm := List.mem_map_of_mem Prod.snd he
      rwa [List.enum_map_snd] at hm
    have hgt : Synth.START_AFTER_HIP < e.2 :=
      lt_of_lt_of_le hcand (loopGo_le fuel existing cand 0 num e.2 hsnd)
    have hnm : e.2 ∉ existing :=
      loopGo_not_mem fuel existing cand 0 num e.2 hsnd
    have hD : 0 < Synth.distOf pow10 (choice e.1) (draws e.1) :=
      distOf_pos pow10 (choice e.1) (draws e.1) hpow
    rw [← hmk]
    simp only [Synth.make_new_star_from_template]
    refine ⟨hgt, hnm,
      ⟨Synth.distOf pow10 (choice e.1) (draws e.1), rfl, hD,
        by rw [if_pos hD]⟩, ?_,
      ⟨Synth.vmagOf (choice e.1) (draws e.1),
        Synth.distOf pow10 (choice e.1) (draws e.1), rfl, rfl,
        by rw [if_pos hD]⟩,
      ⟨Synth.bvOf (choice e.1) (draws e.1), rfl, rfl⟩⟩
    intro p hp
    rw [if_pos hD] at hp
    have hpd : 1000 / Synth.distOf pow10 (choice e.1) (draws e.1) = p :=
      Option.some_injective _ hp
    rw [← hpd]
    have hinv : 1000 / (1000 / Synth.distOf pow10 (choice e.1) (draws e.1))
        = Synth.distOf pow10 (choice e.1) (draws e.1) := by
      field_simp
    rw [hinv]
  · rw [hmaphip]
    exact loopGo_nodup fuel existing cand 0 num

/-- Witness for C9 at a small concrete instance of the loop. -/
theorem synth_fresh_and_recomputed_witness :
    (Synth.loopGo [52] 51 0 2 5).Nodup :=
  (synth_fresh_and_recomputed (fun _ => 1) id
    (fun _ => ⟨none, none, none, none, none, none⟩)
    (fun _ => ⟨0, 0, 0, 0, 0, 0, 0, 0, 0, 0⟩) [52] 51 2 5
    (by norm_num [Synth.START_AFTER_HIP]) (fun _ => one_pos)).1

theorem jSet_get_same (r : Enrich.JObj) (k : String) (v : Enrich.JVal) :
    Enrich.jGet (Enrich.jSet r k v) k = some v := by
  induction r with
  | nil => simp [Enrich.jSet, Enrich.jGet]
  | cons e rest ih =>
      obtain ⟨k₀, v₀⟩ := e
      by_cases h : k₀ = k
      · simp [Enrich.jSet, Enrich.jGet, h]
      · simp [Enrich.jSet, Enrich.jGet, h, ih]

theorem jSet_get_other (r : Enrich.JObj) (k k' : String) (v : Enrich.JVal)
    (hne : k' ≠ k) :
    Enrich.jGet (Enrich.jSet r k v) k' = Enrich.jGet r k' := by
  have hne' : k ≠ k' := Ne.symm hne
  induction r with
  | nil => simp [Enrich.jSet, Enrich.jGet, hne']
  | cons e rest ih =>
      obtain ⟨k₀, v₀⟩ := e
      by_cases h : k₀ = k
      · subst h
        simp [Enrich.jSet, Enrich.jGet, hne']
      · by_cases h' : k₀ = k'
        · subst h'
          simp [Enrich.jSet, Enrich.jGet, h]
        · simp [Enrich.jSet, Enrich.jGet, h, h', ih]

theorem jSet_keys (r : Enrich.JObj) (k k' : String) (v : Enrich.JVal)
    (hne : k' ≠ k) :
    k' ∈ (Enrich.jSet r k v).map Prod.fst ↔ k' ∈ r.map Prod.fst := by
  induction r with
  | nil => simp [Enrich.jSet, hne]
  | cons e rest ih =>
      obtain ⟨k₀, v₀⟩ := e
      by_cases h : k₀ = k
      · subst h
        simp [Enrich.jSet, hne]
      · simp [Enrich.jSet, h, ih]

/-- C10: the Enricher's output is the input stream, record for record in
order, each record changed only at its `"name"` field. With every usable
hip (the run crashes otherwise), the pass succeeds and pairs the `i`-th
output with the `i`-th input as exactly `input` with `"name"` set; reads
of any other key are unchanged, no key other than `"name"` appears or
disappears, and `"name"` holds the computed name. -/
theorem enricher_frame (cache : ℤ → Option Enrich.CacheEntry)
    (records : List Enrich.JObj)
    (hok : ∀ r ∈ records, ∃ h, Enrich.hipOf r = Except.ok h) :
    (∃ out, Enrich.enrichAll cache records = some out ∧
        List.Forall₂ (fun rin rout => ∃ h,
          Enrich.hipOf rin = Except.ok h ∧
          rout = Enrich.jSet rin "name"
            (Enrich.jsonOfName (Enrich.nameFromCache cache h)))
          records out) ∧
    (∀ (r : Enrich.JObj) (v : Enrich.JVal) (k : String), k ≠ "name" →
        Enrich.jGet (Enrich.jSet r "name" v) k = Enrich.jGet r k) ∧
    (∀ (r : Enrich.JObj) (v : Enrich.JVal) (k : String), k ≠ "name" →
        (k ∈ (Enrich.jSet r "name" v).map Prod.fst ↔
          k ∈ r.map Prod.fst)) ∧
    (∀ (r : Enrich.JObj) (v : Enrich.JVal),
        Enrich.jGet (Enrich.jSet r "name" v) "name" = some v) := by
  refine ⟨?_, fun r v k hk => jSet_get_other r "name" k v hk,
    fun r v k hk => jSet_keys r "name" k v hk,
    fun r v => jSet_get_same r "name" v⟩
  induction records with
  | nil => exact ⟨[], rfl, List.Forall₂.nil⟩
  | cons r rest ih =>
      obtain ⟨h, hh⟩ := hok r (List.mem_cons_self _ _)
      obtain ⟨out, hout, hfa⟩ :=
        ih (fun x hx => hok x (List.mem_cons_of_mem _ hx))
      have h1 : Enrich.enrichRecord cache r =
          some (Enrich.jSet r "name"
            (Enrich.jsonOfName (Enrich.nameFromCache cache h))) := by
        rw [Enrich.enrichRecord, hh]
      refine ⟨Enrich.jSet r "name"
          (Enrich.jsonOfName (Enrich.nameFromCache cache h)) :: out, ?_,
        List.Forall₂.cons ⟨h, hh, rfl⟩ hfa⟩
      simp [Enrich.enrichAll, h1, hout]

/-- Witness for C10 on a one-record input with a null hip. -/
theorem enricher_frame_witness :
    Enrich.jGet
        (Enrich.jSet [("hip", Enrich.JVal.jnull)] "name"
          (Enrich.JVal.jstr "x".data)) "name"
      = some (Enrich.JVal.jstr "x".data) :=
  (enricher_frame (fun _ => none) [[("hip", Enrich.JVal.jnull)]]
      (fun r hr => ⟨none, by
        rw [List.mem_singleton] at hr
        subst hr
        rfl⟩)).2.2.2
    [("hip", Enrich.JVal.jnull)] (Enrich.JVal.jstr "x".data)

end GSC
